import Mathlib

/-!
Shallow embedding of the frame-to-glyph pipeline of the nes-owot bridge.

Conventions used throughout:

- JavaScript bitwise operators work on 32-bit two-complement integers;
  they are embedded through toInt32.  A store into a Uint32Array slot
  (the lastFrameData cell-state cache) reduces the value to unsigned
  32 bits, embedded through toUint32.
- The cell-state cache is a function from cell index to the stored Nat.
- The render loops become structural recursion over explicit lists of
  the visited cells, in source iteration order.
- Frame buffers are functions from pixel index to packed pixel value.
-/

/-- Reduction of an integer to the signed 32-bit range, as performed by the
JavaScript bitwise operators. -/
def toInt32 (n : Int) : Int :=
  let m := n % 4294967296
  if m < 2147483648 then m else m - 4294967296

/-- Reduction of an integer to the unsigned 32-bit range, as performed when a
value is stored into a Uint32Array slot such as lastFrameData. -/
def toUint32 (n : Int) : Nat := (n % 4294967296).toNat

/-- JavaScript 32-bit exclusive or. -/
def xor32 (a b : Int) : Int :=
  toInt32 (Int.ofNat (Nat.xor (toUint32 a) (toUint32 b)))

/-- JavaScript 32-bit left shift by a constant below 32. -/
def shlInt32 (a : Int) (k : Nat) : Int := toInt32 (a * 2 ^ k)

/-- fixColor from the sources: swap the low and the high 8-bit channel of a
packed pixel and keep the middle channel.  The JavaScript body reads the
three channels with shifts and masks and reassembles them with a bitwise or;
the three fields are disjoint, so the or is ordinary addition. -/
def fixColor (c : Nat) : Nat :=
  (c % 256) * 65536 + (c / 256 % 256) * 256 + (c / 65536 % 256)

/-- Source width of the frame, in pixels. -/
def WIDTH : Nat := 256

/-- Source height of the frame, in pixels. -/
def HEIGHT : Nat := 240

/-- Destination tile width, in character cells. -/
def TILE_C : Nat := 16

/-- Destination tile height, in character cells. -/
def TILE_R : Nat := 8

/-- Tile coordinate mapper, exactly the four expressions used when an edit
record is pushed: floor division of the cell row by TILE_R, floor division of
the cell column by TILE_C, and the two matching remainders. -/
def mapCell (cellRow cellCol : Nat) : Nat × Nat × Nat × Nat :=
  (cellRow / TILE_R, cellCol / TILE_C, cellRow % TILE_R, cellCol % TILE_C)

/-- One OWOT write instruction.  The timestamp and the edit id of the
JavaScript edit tuple are supplied by the ambient session (Date.now and the
nextEditId counter) and carry no render information, so the embedded record
keeps the coordinate, character and color fields. -/
structure Edit where
  tileY : Nat
  tileX : Nat
  charY : Nat
  charX : Nat
  ch : Nat
  fg : Nat
  bg : Nat
  deriving DecidableEq

/-- Pointwise update of the cell-state cache: the shallow embedding of the
assignment of the hash into lastFrameData at a cell index. -/
def updFn (f : Nat → Nat) (i v : Nat) : Nat → Nat :=
  fun j => if j = i then v else f j

/-- One iteration of the batching loop, taking the slice from the front and
recursing on the rest.  The fuel argument bounds the number of iterations;
callers pass the list length, which always suffices because every iteration
drops at least one element from a nonempty list. -/
def chunkGo (α : Type) : Nat → List α → List (List α)
  | 0, _ => []
  | fuel + 1, l => if l.isEmpty then [] else l.take 500 :: chunkGo α fuel (l.drop 500)

/-- Batch emitter of renderInterlacedOctants and renderToOWOTBatch: the edit
list of one render tick is cut into slices of at most 500 records via
slice(i, i + 500); each element of the result is sent as one socket
message.  An empty edit list is guarded by the length check and produces no
message. -/
def chunk500 (α : Type) (l : List α) : List (List α) := chunkGo α l.length l

lemma chunkGo_flatten (α : Type) :
    ∀ (fuel : Nat) (l : List α), l.length ≤ fuel → (chunkGo α fuel l).flatten = l := by
  intro fuel
  induction fuel with
  | zero =>
    intro l hl
    have hnil : l = [] := List.eq_nil_of_length_eq_zero (by omega)
    subst hnil
    simp [chunkGo]
  | succ n ih =>
    intro l hl
    by_cases he : l.isEmpty
    · have hnil : l = [] := by simpa using he
      subst hnil
      simp [chunkGo]
    · have hne : l ≠ [] := by
        intro hnil
        exact he (by simp [hnil])
      have hpos : 0 < l.length := List.length_pos.mpr hne
      have hdrop : (l.drop 500).length ≤ n := by
        rw [List.length_drop]
        omega
      simp only [chunkGo, he, if_false, Bool.false_eq_true, List.flatten_cons]
      rw [ih (l.drop 500) hdrop]
      exact List.take_append_drop 500 l

lemma chunkGo_mem (α : Type) :
    ∀ (fuel : Nat) (l : List α), ∀ c ∈ chunkGo α fuel l, c.length ≤ 500 ∧ c ≠ [] := by
  intro fuel
  induction fuel with
  | zero => intro l c hc; simp [chunkGo] at hc
  | succ n ih =>
    intro l c hc
    by_cases he : l.isEmpty
    · simp [chunkGo, he] at hc
    · have hne : l ≠ [] := by
        intro hnil
        exact he (by simp [hnil])
      have hpos : 0 < l.length := List.length_pos.mpr hne
      simp only [chunkGo, he, if_false, Bool.false_eq_true, List.mem_cons] at hc
      rcases hc with hc | hc
      · subst hc
        constructor
        · rw [List.length_take]; omega
        · intro hnil
          have : (l.take 500).length = 0 := by rw [hnil]; rfl
          rw [List.length_take] at this
          omega
      · exact ih (l.drop 500) c hc

lemma chunk500_ne_nil (α : Type) (l : List α) (h : l ≠ []) : chunk500 α l ≠ [] := by
  have hpos : 0 < l.length := List.length_pos.mpr h
  unfold chunk500
  rcases hlen : l.length with _ | n
  · omega
  · have he : l.isEmpty = false := by
      rcases l with _ | ⟨a, l⟩
      · simp at hpos
      · rfl
    simp [chunkGo, he]

set_option maxRecDepth 40000 in
/-- C5: the batch emitter cuts the ordered edit list of one render tick into
slices of at most 500 records, keeps the order within and across slices,
produces no message for the empty list, and splits 1203 edits into exactly
three messages of sizes 500, 500 and 203. -/
theorem batchEmitter_spec :
    (∀ l : List Edit, (chunk500 Edit l).flatten = l)
    ∧ (∀ l : List Edit, ∀ c ∈ chunk500 Edit l, c.length ≤ 500 ∧ c ≠ [])
    ∧ chunk500 Edit [] = []
    ∧ (chunk500 Nat (List.range 1203)).map List.length = [500, 500, 203] := by
  refine ⟨fun l => chunkGo_flatten Edit l.length l le_rfl,
          fun l c hc => chunkGo_mem Edit l.length l c hc, rfl, by decide⟩

/-- Witness for C5 at a concrete one-element edit list. -/
theorem batchEmitter_spec_witness :
    ([⟨0, 0, 0, 0, 32, 0, 0⟩] : List Edit).length ≤ 500
    ∧ ([⟨0, 0, 0, 0, 32, 0, 0⟩] : List Edit) ≠ [] :=
  batchEmitter_spec.2.1 [⟨0, 0, 0, 0, 32, 0, 0⟩] [⟨0, 0, 0, 0, 32, 0, 0⟩] (by decide)

/-- C7: the tile coordinate mapper is a pure total function on Nat pairs,
its four outputs are exactly the division data for tile height 8 and tile
width 16, and the concrete cell (23, 130) maps to tile (2, 8) with local
coordinates (7, 2). -/
theorem mapCell_spec :
    (∀ r c : Nat,
      (mapCell r c).1 * 8 + (mapCell r c).2.2.1 = r
      ∧ (mapCell r c).2.2.1 < 8
      ∧ (mapCell r c).2.1 * 16 + (mapCell r c).2.2.2 = c
      ∧ (mapCell r c).2.2.2 < 16)
    ∧ mapCell 23 130 = (2, 8, 7, 2) := by
  constructor
  · intro r c
    refine ⟨?_, ?_, ?_, ?_⟩ <;> simp [mapCell, TILE_R, TILE_C] <;> omega
  · decide

lemma byte_split (c : Nat) :
    c % 16777216 = (c / 65536 % 256) * 65536 + (c / 256 % 256) * 256 + c % 256 := by
  have hd1 : c % 16777216 / 65536 = c / 65536 % 256 := by
    have h := Nat.mod_mul_right_div_self c 65536 256
    norm_num at h
    exact h
  have hm1 : c % 16777216 % 65536 = c % 65536 := Nat.mod_mod_of_dvd c (by norm_num)
  have hd2 : c % 65536 / 256 = c / 256 % 256 := by
    have h := Nat.mod_mul_right_div_self c 256 256
    norm_num at h
    exact h
  have hm2 : c % 65536 % 256 = c % 256 := Nat.mod_mod_of_dvd c (by norm_num)
  have e1 : c % 16777216 = 65536 * (c % 16777216 / 65536) + c % 16777216 % 65536 :=
    (Nat.div_add_mod _ 65536).symm
  have e2 : c % 65536 = 256 * (c % 65536 / 256) + c % 65536 % 256 :=
    (Nat.div_add_mod _ 256).symm
  rw [e1, hd1, hm1, e2, hd2, hm2]
  ring

/-- C10: fixColor swaps the outer 8-bit channels and keeps the middle one,
bits above bit 23 of the input never influence the result, applying it twice
returns the input reduced to its low 24 bits, and the result always fits in
24 bits; hence it is an involution on 24-bit pixels. -/
theorem fixColor_spec :
    ∀ c : Nat,
      fixColor (fixColor c) = c % 16777216
      ∧ fixColor c = fixColor (c % 16777216)
      ∧ fixColor c < 16777216
      ∧ fixColor c % 256 = c / 65536 % 256
      ∧ fixColor c / 256 % 256 = c / 256 % 256
      ∧ fixColor c / 65536 = c % 256 := by
  intro c
  have key : ∀ r g b : Nat, g < 256 → b < 256 →
      (r * 65536 + g * 256 + b) % 256 = b
      ∧ (r * 65536 + g * 256 + b) / 256 % 256 = g
      ∧ (r * 65536 + g * 256 + b) / 65536 = r := by
    intro r g b hg hb
    omega
  obtain ⟨k1, k2, k3⟩ :=
    key (c % 256) (c / 256 % 256) (c / 65536 % 256)
      (Nat.mod_lt _ (by norm_num)) (Nat.mod_lt _ (by norm_num))
  have h4 : fixColor c % 256 = c / 65536 % 256 := k1
  have h5 : fixColor c / 256 % 256 = c / 256 % 256 := k2
  have h6 : fixColor c / 65536 = c % 256 := k3
  refine ⟨?_, ?_, ?_, h4, h5, h6⟩
  · have houter : fixColor (fixColor c) =
        (fixColor c % 256) * 65536 + (fixColor c / 256 % 256) * 256
          + (fixColor c / 65536 % 256) := rfl
    calc fixColor (fixColor c)
        = (c / 65536 % 256) * 65536 + (c / 256 % 256) * 256 + c % 256 % 256 := by
          rw [houter, h4, h5, h6]
      _ = (c / 65536 % 256) * 65536 + (c / 256 % 256) * 256 + c % 256 := by
          rw [Nat.mod_mod_of_dvd c dvd_rfl]
      _ = c % 16777216 := (byte_split c).symm
  · have f1 : c % 16777216 % 256 = c % 256 := Nat.mod_mod_of_dvd c (by norm_num)
    have f2 : c % 16777216 / 256 = c / 256 % 65536 := by
      have h := Nat.mod_mul_right_div_self c 256 65536
      norm_num at h
      exact h
    have f3 : c % 16777216 / 65536 = c / 65536 % 256 := by
      have h := Nat.mod_mul_right_div_self c 65536 256
      norm_num at h
      exact h
    show (c % 256) * 65536 + (c / 256 % 256) * 256 + (c / 65536 % 256) =
      (c % 16777216 % 256) * 65536 + (c % 16777216 / 256 % 256) * 256
        + (c % 16777216 / 65536 % 256)
    rw [f1, f2, f3, Nat.mod_mod_of_dvd (c / 256) (by norm_num : (256:Nat) ∣ 65536),
      Nat.mod_mod_of_dvd (c / 65536) dvd_rfl]
  · show (c % 256) * 65536 + (c / 256 % 256) * 256 + (c / 65536 % 256) < 16777216
    omega

/-!
Octant policy of renderInterlacedOctants: a 2x4 pixel block is reduced to
the two most common colors plus an 8-bit sample mask, and the mask selects
a Legacy Computing Supplement character.

The JavaScript color selection builds a plain object keyed by the color
values, reads its keys back and sorts them by descending count.  By the
ECMAScript object semantics the keys of such an object (all canonical
array indices) come back in ascending numeric order, and Array sort is
stable, so the resulting order is exactly the order by descending count
with ties broken toward the numerically smaller color.  That order is a
total, transitive and antisymmetric relation on distinct colors, so the
sorted key list is the unique jsR-sorted arrangement of the distinct
colors, which is how it is embedded here.
-/

/-- The comparison realised by the JavaScript key-and-sort sequence:
descending sample count, ties toward the smaller color value. -/
def jsR (l : List Nat) (a b : Nat) : Prop :=
  l.count b < l.count a ∨ (l.count a = l.count b ∧ a ≤ b)

instance (l : List Nat) (a b : Nat) : Decidable (jsR l a b) := by
  unfold jsR
  exact inferInstance

/-- The distinct colors of the block, sorted by descending count with ties
toward the smaller value. -/
def sortedKeys (colors : List Nat) : List Nat :=
  List.insertionSort (jsR colors) colors.dedup

/-- The fg and bg selection: fg is the first sorted key, bg the second when
it exists, otherwise fg again.  The render always calls this with the eight
samples of a block, so the list is never empty. -/
def selectFgBg (colors : List Nat) : Nat × Nat :=
  match sortedKeys colors with
  | [] => (0, 0)
  | [a] => (a, a)
  | a :: b :: _ => (a, b)

lemma jsR_refl (l : List Nat) (a : Nat) : jsR l a a := Or.inr ⟨rfl, le_refl a⟩

lemma jsR_total (l : List Nat) (a b : Nat) : jsR l a b ∨ jsR l b a := by
  unfold jsR
  omega

lemma jsR_trans (l : List Nat) (a b c : Nat) : jsR l a b → jsR l b c → jsR l a c := by
  unfold jsR
  omega

lemma mem_sortedKeys (colors : List Nat) (c : Nat) :
    c ∈ sortedKeys colors ↔ c ∈ colors := by
  unfold sortedKeys
  rw [(List.perm_insertionSort (jsR colors) colors.dedup).mem_iff, List.mem_dedup]

lemma nodup_sortedKeys (colors : List Nat) : (sortedKeys colors).Nodup := by
  unfold sortedKeys
  exact ((List.perm_insertionSort (jsR colors) colors.dedup).nodup_iff).mpr
    colors.nodup_dedup

lemma sorted_sortedKeys (colors : List Nat) :
    List.Sorted (jsR colors) (sortedKeys colors) := by
  haveI : IsTotal Nat (jsR colors) := ⟨jsR_total colors⟩
  haveI : IsTrans Nat (jsR colors) := ⟨jsR_trans colors⟩
  exact List.sorted_insertionSort (jsR colors) colors.dedup

/-- Full characterisation of the fg and bg selection: fg is a jsR-least
color, bg is a jsR-least color among the remaining ones when the block is
not monochrome and equals fg otherwise. -/
lemma selectFgBg_spec (colors : List Nat) (hne : colors ≠ []) :
    ((selectFgBg colors).1 ∈ colors
      ∧ ∀ c ∈ colors, jsR colors (selectFgBg colors).1 c)
    ∧ ((∀ c ∈ colors, c = (selectFgBg colors).1) →
        (selectFgBg colors).2 = (selectFgBg colors).1)
    ∧ (∀ d ∈ colors, d ≠ (selectFgBg colors).1 →
        (selectFgBg colors).2 ∈ colors
        ∧ (selectFgBg colors).2 ≠ (selectFgBg colors).1
        ∧ ∀ c ∈ colors, c ≠ (selectFgBg colors).1 →
            jsR colors (selectFgBg colors).2 c) := by
  obtain ⟨x, hx⟩ := List.exists_mem_of_ne_nil colors hne
  cases hs : sortedKeys colors with
  | nil =>
    rw [← mem_sortedKeys colors x, hs] at hx
    exact absurd hx (List.not_mem_nil x)
  | cons a t =>
    cases t with
    | nil =>
      have hsel : selectFgBg colors = (a, a) := by
        unfold selectFgBg
        rw [hs]
      rw [hsel]
      have hmem : a ∈ colors := by
        rw [← mem_sortedKeys colors a, hs]
        exact List.mem_cons_self a []
      refine ⟨⟨hmem, ?_⟩, fun _ => rfl, ?_⟩
      · intro c hc
        have : c ∈ sortedKeys colors := (mem_sortedKeys colors c).mpr hc
        rw [hs] at this
        rcases List.mem_singleton.mp this with rfl
        exact jsR_refl colors c
      · intro d hd hda
        have : d ∈ sortedKeys colors := (mem_sortedKeys colors d).mpr hd
        rw [hs] at this
        exact absurd (List.mem_singleton.mp this) hda
    | cons b t2 =>
      have hsel : selectFgBg colors = (a, b) := by
        unfold selectFgBg
        rw [hs]
      rw [hsel]
      have hsorted := sorted_sortedKeys colors
      rw [hs] at hsorted
      obtain ⟨ha, hsorted2⟩ := List.sorted_cons.mp hsorted
      obtain ⟨hb, _⟩ := List.sorted_cons.mp hsorted2
      have hnodup := nodup_sortedKeys colors
      rw [hs] at hnodup
      have hanotin : a ∉ b :: t2 := (List.nodup_cons.mp hnodup).1
      have hamem : a ∈ colors := by
        rw [← mem_sortedKeys colors a, hs]
        exact List.mem_cons_self a (b :: t2)
      have hbmem : b ∈ colors := by
        rw [← mem_sortedKeys colors b, hs]
        exact List.mem_cons_of_mem a (List.mem_cons_self b t2)
      have hba : b ≠ a := by
        intro hba
        exact hanotin (hba ▸ List.mem_cons_self b t2)
      refine ⟨⟨hamem, ?_⟩, ?_, ?_⟩
      · intro c hc
        have hcs : c ∈ sortedKeys colors := (mem_sortedKeys colors c).mpr hc
        rw [hs] at hcs
        rcases List.mem_cons.mp hcs with rfl | hcs2
        · exact jsR_refl colors c
        · exact ha c hcs2
      · intro hall
        exact hall b hbmem
      · intro d hd hda
        refine ⟨hbmem, hba, ?_⟩
        intro c hc hca
        have hcs : c ∈ sortedKeys colors := (mem_sortedKeys colors c).mpr hc
        rw [hs] at hcs
        rcases List.mem_cons.mp hcs with rfl | hcs2
        · exact absurd rfl hca
        · rcases List.mem_cons.mp hcs2 with rfl | hcs3
          · exact jsR_refl colors c
          · exact hb c hcs3

/-- The bit patterns of the Legacy Computing Supplement octant characters,
copied from the renderer source.  Entry i is the 8-bit sample mask drawn by
the character at code point 0x1CD00 + i. -/
def lcsOctantCharPoints : List Nat :=
  [4, 6, 7, 8, 9, 11, 12, 13, 14, 16, 17, 18, 19, 21, 22, 23, 24, 25, 26,
   27, 28, 29, 30, 31, 32, 33, 34, 35, 36, 37, 38, 39, 41, 42, 43, 44, 45,
   46, 47, 48, 49, 50, 51, 52, 53, 54, 55, 56, 57, 58, 59, 60, 61, 62, 65,
   66, 67, 68, 69, 70, 71, 72, 73, 74, 75, 76, 77, 78, 79, 81, 82, 83, 84,
   86, 87, 88, 89, 91, 92, 93, 94, 96, 97, 98, 99, 100, 101, 102, 103, 104,
   105, 106, 107, 108, 109, 110, 111, 112, 113, 114, 115, 116, 117, 118,
   119, 120, 121, 122, 123, 124, 125, 126, 127, 129, 130, 131, 132, 133,
   134, 135, 136, 137, 138, 139, 140, 141, 142, 143, 144, 145, 146, 147,
   148, 149, 150, 151, 152, 153, 154, 155, 156, 157, 158, 159, 161, 162,
   163, 164, 166, 167, 168, 169, 171, 172, 173, 174, 176, 177, 178, 179,
   180, 181, 182, 183, 184, 185, 186, 187, 188, 189, 190, 191, 193, 194,
   195, 196, 197, 198, 199, 200, 201, 202, 203, 204, 205, 206, 207, 208,
   209, 210, 211, 212, 213, 214, 215, 216, 217, 218, 219, 220, 221, 222,
   223, 224, 225, 226, 227, 228, 229, 230, 231, 232, 233, 234, 235, 236,
   237, 238, 239, 241, 242, 243, 244, 246, 247, 248, 249, 251, 253, 254]

/-- The bitmask-to-character cache built by the forEach over the table:
an association list from mask to code point 0x1CD00 + index. -/
def octantCache : List (Nat × Nat) :=
  (List.enum lcsOctantCharPoints).map (fun p => (p.2, 118016 + p.1))

/-- Character selection for a mask: the cached code point, or the blank
space fallback (code point 32) when the mask is not a key of the cache. -/
def octChar (mask : Nat) : Nat := (octantCache.lookup mask).getD 32

/-- Test of one sample slot against the selected fg, as in the forEach that
builds the mask.  A slot beyond the list answers false, like the JavaScript
comparison of undefined against a number; the default fg + 1 never equals
fg. -/
def sampleEq (colors : List Nat) (fg : Nat) (i : Nat) : Bool :=
  colors.getD i (fg + 1) == fg

/-- The 8-bit sample mask of a block: bit i is set iff sample i equals fg.
The eight disjoint bit contributions of the source forEach are spelled out;
or of disjoint bits is addition. -/
def blockMask (colors : List Nat) (fg : Nat) : Nat :=
  (if sampleEq colors fg 0 then 1 else 0) + (if sampleEq colors fg 1 then 2 else 0)
    + (if sampleEq colors fg 2 then 4 else 0) + (if sampleEq colors fg 3 then 8 else 0)
    + (if sampleEq colors fg 4 then 16 else 0) + (if sampleEq colors fg 5 then 32 else 0)
    + (if sampleEq colors fg 6 then 64 else 0) + (if sampleEq colors fg 7 then 128 else 0)

/-- The glyph of a block: the character selected by the mask together with
the chosen fg and bg.  A mask outside the table keeps the chosen fg and bg
and only falls back to the blank character. -/
def octGlyph (colors : List Nat) : Nat × Nat × Nat :=
  (octChar (blockMask colors (selectFgBg colors).1),
    (selectFgBg colors).1, (selectFgBg colors).2)

set_option maxRecDepth 100000 in
/-- C2 counterexample: the reachable block with samples 0,1,0,2,3,4,5,6
selects fg 0 and bg 1 and produces mask 5, which is not a key of the table;
the glyph falls back to the blank space but keeps fg 0 and bg 1, so its
foreground does not equal its background. -/
theorem octantFallback_counterexample :
    octGlyph [0, 1, 0, 2, 3, 4, 5, 6] = (32, 0, 1)
    ∧ blockMask [0, 1, 0, 2, 3, 4, 5, 6] 0 = 5
    ∧ octantCache.lookup 5 = none
    ∧ (0 : Nat) ≠ 1 := by
  decide

set_option maxRecDepth 100000 in
/-- C2 (amended): the mask table has 230 entries; a mask present in the
table at index i resolves to the fixed code point 0x1CD00 + i (118016 + i),
in particular mask 4 resolves to 0x1CD00; any mask absent from the table,
including 0x00 and 0xFF, resolves to the blank space fallback while the fg
and bg chosen for the block are kept unchanged, and fg equals bg exactly in
the monochrome case, whose mask is 0xFF. -/
theorem octantTable_spec :
    lcsOctantCharPoints.length = 230
    ∧ octantCache.lookup 0 = none
    ∧ octantCache.lookup 255 = none
    ∧ octChar 0 = 32
    ∧ octChar 255 = 32
    ∧ octantCache.lookup 4 = some 118016
    ∧ (∀ i, i < 230 → octantCache.lookup (lcsOctantCharPoints.getD i 0) = some (118016 + i))
    ∧ (∀ mask, mask < 256 → mask ∉ lcsOctantCharPoints → octChar mask = 32)
    ∧ (∀ colors : List Nat, (octGlyph colors).2.1 = (selectFgBg colors).1
        ∧ (octGlyph colors).2.2 = (selectFgBg colors).2)
    ∧ (∀ c : Nat, blockMask [c, c, c, c, c, c, c, c] c = 255)
    ∧ (∀ colors : List Nat, colors ≠ [] → (∀ c ∈ colors, c = (selectFgBg colors).1) →
        (selectFgBg colors).2 = (selectFgBg colors).1) := by
  refine ⟨by decide, by decide, by decide, by decide, by decide, by decide,
    by decide, by decide, fun colors => ⟨rfl, rfl⟩, ?_, ?_⟩
  · intro c
    simp [blockMask, sampleEq, List.getD]
  · intro colors hne hall
    exact (selectFgBg_spec colors hne).2.1 hall

/-- Witness for C2 at the first table entry, mask 4 at index 0. -/
theorem octantTable_spec_witness :
    octantCache.lookup (lcsOctantCharPoints.getD 0 0) = some (118016 + 0) :=
  octantTable_spec.2.2.2.2.2.2.1 0 (by decide)

set_option maxRecDepth 100000 in
/-- C3 counterexample: in the block 5,5,5,5,3,3,3,3 the colors 5 and 3 tie
at four samples each and 5 is the color first encountered in raster scan
order, yet the selection returns fg 3, the numerically smaller color. -/
theorem tieBreak_counterexample :
    (selectFgBg [5, 5, 5, 5, 3, 3, 3, 3]).1 = 3
    ∧ (selectFgBg [5, 5, 5, 5, 3, 3, 3, 3]).2 = 5
    ∧ List.headD [5, 5, 5, 5, 3, 3, 3, 3] 0 = 5
    ∧ List.count 5 [5, 5, 5, 5, 3, 3, 3, 3] = 4
    ∧ List.count 3 [5, 5, 5, 5, 3, 3, 3, 3] = 4
    ∧ (3 : Nat) ≠ 5 := by
  decide

/-- C3 (amended): fg is a most frequent color of the block with ties broken
toward the numerically smallest color value, bg equals fg when the block is
monochrome, and otherwise bg is a distinct color that is most frequent among
the other colors under the same tie-break. -/
theorem dominantColor_amended :
    ∀ colors : List Nat, colors ≠ [] →
      ((selectFgBg colors).1 ∈ colors
        ∧ ∀ c ∈ colors, List.count c colors < List.count (selectFgBg colors).1 colors
            ∨ (List.count (selectFgBg colors).1 colors = List.count c colors
                ∧ (selectFgBg colors).1 ≤ c))
      ∧ ((∀ c ∈ colors, c = (selectFgBg colors).1) →
          (selectFgBg colors).2 = (selectFgBg colors).1)
      ∧ (∀ d ∈ colors, d ≠ (selectFgBg colors).1 →
          (selectFgBg colors).2 ∈ colors
          ∧ (selectFgBg colors).2 ≠ (selectFgBg colors).1
          ∧ ∀ c ∈ colors, c ≠ (selectFgBg colors).1 →
              List.count c colors < List.count (selectFgBg colors).2 colors
              ∨ (List.count (selectFgBg colors).2 colors = List.count c colors
                  ∧ (selectFgBg colors).2 ≤ c)) := by
  intro colors hne
  exact selectFgBg_spec colors hne

/-- Witness for C3 at the tied two-color block. -/
theorem dominantColor_amended_witness :
    (selectFgBg [5, 5, 5, 5, 3, 3, 3, 3]).1 ∈ [5, 5, 5, 5, 3, 3, 3, 3] :=
  (dominantColor_amended [5, 5, 5, 5, 3, 3, 3, 3] (by decide)).1.1

/-!
Per-cell differ of the octant renderer.  The hash expression of the source
is (fg shl 16) xor (bg shl 8) xor bitmask under JavaScript 32-bit signed
semantics; the comparison against the Uint32Array slot is a comparison of
the two values as numbers, and the store reduces the hash to unsigned
32 bits.
-/

/-- The eight samples of the 2x4 block at character cell (yChar, xChar), in
raster scan order (subY outer, subX inner), each passed through fixColor.
The source loops over subY below 4 and subX below 2; the iterations are
spelled out. -/
def sampleBlock (frame : Nat → Nat) (yChar xChar : Nat) : List Nat :=
  [fixColor (frame ((yChar * 4 + 0) * WIDTH + (xChar * 2 + 0))),
   fixColor (frame ((yChar * 4 + 0) * WIDTH + (xChar * 2 + 1))),
   fixColor (frame ((yChar * 4 + 1) * WIDTH + (xChar * 2 + 0))),
   fixColor (frame ((yChar * 4 + 1) * WIDTH + (xChar * 2 + 1))),
   fixColor (frame ((yChar * 4 + 2) * WIDTH + (xChar * 2 + 0))),
   fixColor (frame ((yChar * 4 + 2) * WIDTH + (xChar * 2 + 1))),
   fixColor (frame ((yChar * 4 + 3) * WIDTH + (xChar * 2 + 0))),
   fixColor (frame ((yChar * 4 + 3) * WIDTH + (xChar * 2 + 1)))]

/-- The combined non-cryptographic hash of fg, bg and mask, with JavaScript
32-bit signed semantics. -/
def octHash (fg bg mask : Nat) : Int :=
  xor32 (xor32 (shlInt32 (Int.ofNat fg) 16) (shlInt32 (Int.ofNat bg) 8)) (Int.ofNat mask)

/-- The hash of a sample list. -/
def octHashOf (colors : List Nat) : Int :=
  octHash (selectFgBg colors).1 (selectFgBg colors).2 (blockMask colors (selectFgBg colors).1)

/-- The hash the octant renderer computes for cell (yChar, xChar). -/
def octHashAt (frame : Nat → Nat) (yChar xChar : Nat) : Int :=
  octHashOf (sampleBlock frame yChar xChar)

/-- The edit record the octant renderer would push for cell (yChar, xChar). -/
def octEditAt (frame : Nat → Nat) (yChar xChar : Nat) : Edit :=
  { tileY := (mapCell yChar xChar).1
    tileX := (mapCell yChar xChar).2.1
    charY := (mapCell yChar xChar).2.2.1
    charX := (mapCell yChar xChar).2.2.2
    ch := (octGlyph (sampleBlock frame yChar xChar)).1
    fg := (octGlyph (sampleBlock frame yChar xChar)).2.1
    bg := (octGlyph (sampleBlock frame yChar xChar)).2.2 }

/-- The loop body of renderInterlacedOctants for one visited cell: compare
the hash against the stored slot of lastFrameData at cellIdx = yChar * 128
+ xChar; on equality leave the cache alone and push nothing, otherwise push
the edit record and overwrite the slot with the hash, which the Uint32Array
reduces to unsigned 32 bits. -/
def octCellStep (cache : Nat → Nat) (frame : Nat → Nat) (yChar xChar : Nat) :
    (Nat → Nat) × Option Edit :=
  if Int.ofNat (cache (yChar * 128 + xChar)) = octHashAt frame yChar xChar then
    (cache, none)
  else
    (updFn cache (yChar * 128 + xChar) (toUint32 (octHashAt frame yChar xChar)),
      some (octEditAt frame yChar xChar))

/-- C1 (amended): for every visited cell, an edit record (carrying the new
glyph and the mapped coordinates) is emitted iff the combined hash differs
from the stored slot as numbers, the slot is overwritten with the unsigned
32-bit reduction of the new hash exactly when an edit is emitted and is left
unchanged otherwise, and no other slot changes. -/
theorem octDiffer_amended :
    ∀ (cache frame : Nat → Nat) (yChar xChar : Nat),
      ((octCellStep cache frame yChar xChar).2
          = if Int.ofNat (cache (yChar * 128 + xChar)) = octHashAt frame yChar xChar
            then none else some (octEditAt frame yChar xChar))
      ∧ ((octCellStep cache frame yChar xChar).1 (yChar * 128 + xChar)
          = if Int.ofNat (cache (yChar * 128 + xChar)) = octHashAt frame yChar xChar
            then cache (yChar * 128 + xChar)
            else toUint32 (octHashAt frame yChar xChar))
      ∧ (∀ j, j ≠ yChar * 128 + xChar →
          (octCellStep cache frame yChar xChar).1 j = cache j) := by
  intro cache frame yChar xChar
  by_cases h : Int.ofNat (cache (yChar * 128 + xChar)) = octHashAt frame yChar xChar
  · refine ⟨?_, ?_, ?_⟩
    · rw [octCellStep, if_pos h, if_pos h]
    · rw [octCellStep, if_pos h, if_pos h]
    · intro j hj
      rw [octCellStep, if_pos h]
  · refine ⟨?_, ?_, ?_⟩
    · rw [octCellStep, if_neg h, if_neg h]
    · rw [octCellStep, if_neg h, if_neg h]
      simp [updFn]
    · intro j hj
      rw [octCellStep, if_neg h]
      simp [updFn, hj]

set_option maxRecDepth 100000 in
/-- C1 counterexample: on the uniform frame of pixels 0x008000 the first
cell is visited with stored slot 0; the computed hash is the negative
int32 value -2139094785, an edit is emitted, and the slot afterwards holds
2155872511, the unsigned reduction, which is not the new hash. -/
theorem octDiffer_counterexample :
    ((octCellStep (fun _ => 0) (fun _ => 32768) 0 0).2).isSome = true
    ∧ (octCellStep (fun _ => 0) (fun _ => 32768) 0 0).1 0 = 2155872511
    ∧ octHashAt (fun _ => 32768) 0 0 = -2139094785
    ∧ Int.ofNat 2155872511 ≠ (-2139094785 : Int) := by
  refine ⟨by decide, by decide, by decide, by decide⟩

/-- Witness for C1: the amended differ theorem applied at the uniform zero
frame and zero cache, where the hash is zero and nothing is emitted, checked
at the untouched slot 5. -/
theorem octDiffer_amended_witness :
    (octCellStep (fun _ => 0) (fun _ => 0) 0 0).1 5 = 0 :=
  (octDiffer_amended (fun _ => 0) (fun _ => 0) 0 0).2.2 5 (by decide)

/-!
Interlace scheduler and the octant render tick of renderInterlacedOctants:
rows below 60 whose parity differs from the interlace field are skipped,
every column below 128 of a visited row is sampled, and the field is
toggled unconditionally after the loop, before the send guard.
-/

/-- The rows visited by one octant render tick under the given interlace
field: the continue statement skips exactly the rows whose parity differs
from the field. -/
def visitedRows (field : Nat) : List Nat :=
  (List.range 60).filter (fun y => y % 2 == field)

/-- The unconditional field toggle executed at the end of every tick. -/
def toggleField (field : Nat) : Nat := if field = 0 then 1 else 0

/-- The cells visited by one octant tick, rows outer and columns inner as
in the source loops. -/
def octCells (field : Nat) : List (Nat × Nat) :=
  (visitedRows field).flatMap (fun y => (List.range 128).map (fun x => (y, x)))

/-- The loop of renderInterlacedOctants over a list of visited cells,
threading the cell-state cache and collecting the pushed edits in source
order. -/
def octRun (frame : Nat → Nat) : (Nat → Nat) → List (Nat × Nat) → (Nat → Nat) × List Edit
  | cache, [] => (cache, [])
  | cache, p :: rest =>
    let s := octCellStep cache frame p.1 p.2
    match s.2 with
    | none => octRun frame s.1 rest
    | some e =>
      let r := octRun frame s.1 rest
      (r.1, e :: r.2)

/-- Result of one render tick: the new cache, the collected edits and the
new interlace field. -/
structure TickResult where
  cache : Nat → Nat
  edits : List Edit
  field : Nat

/-- One full render tick of renderInterlacedOctants: run the loop over the
visited cells and toggle the field unconditionally. -/
def octTick (cache frame : Nat → Nat) (field : Nat) : TickResult :=
  { cache := (octRun frame cache (octCells field)).1
    edits := (octRun frame cache (octCells field)).2
    field := toggleField field }

/-- C4: the interlace field of a tick result is the toggled bit, independent
of cache, frame and produced edits; the visited rows are exactly the rows
below 60 whose parity equals the field; every column below 128 of a visited
row is sampled; and the rows of two consecutive ticks cover each row below
60 exactly once. -/
theorem interlace_spec :
    ∀ (cache frame : Nat → Nat) (field : Nat), field ≤ 1 →
      ((octTick cache frame field).field = 1 - field)
      ∧ (∀ y, y ∈ visitedRows field ↔ (y < 60 ∧ y % 2 = field))
      ∧ (∀ y x, (y, x) ∈ octCells field ↔ (y < 60 ∧ y % 2 = field ∧ x < 128))
      ∧ (∀ y, y < 60 →
          (visitedRows field).count y + (visitedRows (1 - field)).count y = 1) := by
  intro cache frame field hf
  have hmem : ∀ f y, y ∈ visitedRows f ↔ (y < 60 ∧ y % 2 = f) := by
    intro f y
    simp [visitedRows, List.mem_filter, List.mem_range]
  have hnod : ∀ f, (visitedRows f).Nodup :=
    fun f => (List.nodup_range 60).filter _
  refine ⟨?_, hmem field, ?_, ?_⟩
  · show toggleField field = 1 - field
    unfold toggleField
    rcases Nat.le_one_iff_eq_zero_or_eq_one.mp hf with rfl | rfl <;> rfl
  · intro y x
    constructor
    · intro h
      obtain ⟨a, ha, hmap⟩ := List.mem_flatMap.mp h
      obtain ⟨b, hb, heq⟩ := List.mem_map.mp hmap
      obtain ⟨rfl, rfl⟩ := Prod.mk.injEq .. ▸ heq
      obtain ⟨h1, h2⟩ := (hmem field a).mp ha
      exact ⟨h1, h2, List.mem_range.mp hb⟩
    · rintro ⟨h1, h2, h3⟩
      exact List.mem_flatMap.mpr ⟨y, (hmem field y).mpr ⟨h1, h2⟩,
        List.mem_map.mpr ⟨x, List.mem_range.mpr h3, rfl⟩⟩
  · intro y hy
    by_cases hp : y % 2 = field
    · have h1 : y ∈ visitedRows field := (hmem field y).mpr ⟨hy, hp⟩
      have h2 : y ∉ visitedRows (1 - field) := by
        rw [hmem (1 - field) y]
        omega
      rw [List.count_eq_one_of_mem (hnod field) h1,
        List.count_eq_zero_of_not_mem h2]
    · have hq : y % 2 = 1 - field := by omega
      have h1 : y ∉ visitedRows field := by
        rw [hmem field y]
        omega
      have h2 : y ∈ visitedRows (1 - field) := (hmem (1 - field) y).mpr ⟨hy, hq⟩
      rw [List.count_eq_zero_of_not_mem h1,
        List.count_eq_one_of_mem (hnod (1 - field)) h2]

/-- Witness for C4 at field 0: the toggled field is 1. -/
theorem interlace_spec_witness :
    (octTick (fun _ => 0) (fun _ => 0) 0).field = 1 - 0 :=
  (interlace_spec (fun _ => 0) (fun _ => 0) 0 (by decide)).1

/-!
Half-block renderer renderToOWOTBatch: the source loops over pixel rows y
in steps of two and all columns x below WIDTH, reads the top pixel at
y * WIDTH + x and the bottom pixel at (y + 1) * WIDTH + x, normalises both
with fixColor, hashes them as (colorT shl 24) xor colorB with JavaScript
32-bit semantics and runs the same differ against cell index
(y / 2) * WIDTH + x.  Cells are indexed below by the half row yc = y / 2.
-/

/-- The hash renderToOWOTBatch computes for the cell in half row yc and
column x. -/
def hbHashAt (frame : Nat → Nat) (yc x : Nat) : Int :=
  xor32 (shlInt32 (Int.ofNat (fixColor (frame ((2 * yc) * WIDTH + x)))) 24)
    (Int.ofNat (fixColor (frame ((2 * yc + 1) * WIDTH + x))))

/-- The edit record renderToOWOTBatch pushes for a changed cell: the fixed
upper half block character 0x2580 (9600), fg the normalised top pixel and
bg the normalised bottom pixel, at the mapped tile coordinates. -/
def hbEditAt (frame : Nat → Nat) (yc x : Nat) : Edit :=
  { tileY := (mapCell yc x).1
    tileX := (mapCell yc x).2.1
    charY := (mapCell yc x).2.2.1
    charX := (mapCell yc x).2.2.2
    ch := 9600
    fg := fixColor (frame ((2 * yc) * WIDTH + x))
    bg := fixColor (frame ((2 * yc + 1) * WIDTH + x)) }

/-- The loop body of renderToOWOTBatch for one cell. -/
def hbCellStep (cache : Nat → Nat) (frame : Nat → Nat) (yc x : Nat) :
    (Nat → Nat) × Option Edit :=
  if Int.ofNat (cache (yc * WIDTH + x)) = hbHashAt frame yc x then
    (cache, none)
  else
    (updFn cache (yc * WIDTH + x) (toUint32 (hbHashAt frame yc x)),
      some (hbEditAt frame yc x))

/-- All cells of one half-block tick, half rows below 120 outer, columns
below 256 inner, as in the source loops. -/
def hbCells : List (Nat × Nat) :=
  (List.range 120).flatMap (fun yc => (List.range 256).map (fun x => (yc, x)))

/-- The loop of renderToOWOTBatch over a list of cells, threading the
cell-state cache and collecting the pushed edits in source order. -/
def hbRun (frame : Nat → Nat) : (Nat → Nat) → List (Nat × Nat) → (Nat → Nat) × List Edit
  | cache, [] => (cache, [])
  | cache, p :: rest =>
    ((hbRun frame (hbCellStep cache frame p.1 p.2).1 rest).1,
      ((hbCellStep cache frame p.1 p.2).2).toList
        ++ (hbRun frame (hbCellStep cache frame p.1 p.2).1 rest).2)

/-- One full render tick of renderToOWOTBatch: the new cache and the edit
list. -/
def hbTick (frame cache : Nat → Nat) : (Nat → Nat) × List Edit :=
  hbRun frame cache hbCells

/-- The outbound messages of one half-block tick: the 500-chunks of the
edit list. -/
def hbMessages (edits : List Edit) : List (List Edit) := chunk500 Edit edits

/-- C6 counterexample: the character the half-block policy emits for a
changed cell is the code point 9600, the UPPER half block U+2580, and not
the lower half block U+2584 (9604) that the claim names.  Checked on the
uniform frame of pixel value 1 with a zero cache at cell (0, 0). -/
theorem halfBlock_counterexample :
    (hbCellStep (fun _ => 0) (fun _ => 1) 0 0).2
      = some ⟨0, 0, 0, 0, 9600, 65536, 65536⟩
    ∧ (9600 : Nat) ≠ 9604 := by
  refine ⟨by decide, by decide⟩

/-- C6 (amended): every edit emitted by the half-block policy carries the
fixed upper half block character U+2580 (code point 9600), fg equal to the
normalised top source pixel of the cell and bg equal to the normalised
source pixel directly below it. -/
theorem halfBlock_spec :
    ∀ (cache frame : Nat → Nat) (yc x : Nat) (e : Edit),
      (hbCellStep cache frame yc x).2 = some e →
        e.ch = 9600
        ∧ e.fg = fixColor (frame ((2 * yc) * WIDTH + x))
        ∧ e.bg = fixColor (frame ((2 * yc + 1) * WIDTH + x)) := by
  intro cache frame yc x e he
  unfold hbCellStep at he
  by_cases h : Int.ofNat (cache (yc * WIDTH + x)) = hbHashAt frame yc x
  · rw [if_pos h] at he
    exact absurd he (by simp)
  · rw [if_neg h] at he
    obtain rfl := (Option.some.injEq .. ▸ he :
      hbEditAt frame yc x = e)
    exact ⟨rfl, rfl, rfl⟩

/-- Witness for C6: on the uniform frame of pixel value 1 with a zero cache
the first cell emits, and the emitted record carries the upper half block
character with fg and bg both the normalised color 65536. -/
theorem halfBlock_spec_witness :
    (⟨0, 0, 0, 0, 9600, 65536, 65536⟩ : Edit).ch = 9600
    ∧ (⟨0, 0, 0, 0, 9600, 65536, 65536⟩ : Edit).fg
        = fixColor ((fun _ => 1) ((2 * 0) * WIDTH + 0))
    ∧ (⟨0, 0, 0, 0, 9600, 65536, 65536⟩ : Edit).bg
        = fixColor ((fun _ => 1) ((2 * 0 + 1) * WIDTH + 0)) :=
  halfBlock_spec (fun _ => 0) (fun _ => 1) 0 0 ⟨0, 0, 0, 0, 9600, 65536, 65536⟩
    (by decide)

lemma hbRun_cons_skip (frame cache : Nat → Nat) (p : Nat × Nat) (rest : List (Nat × Nat))
    (h : hbCellStep cache frame p.1 p.2 = (cache, none)) :
    hbRun frame cache (p :: rest) = hbRun frame cache rest := by
  simp only [hbRun, h, Option.toList_none, List.nil_append]

lemma hbRun_cons_emit (frame cache c2 : Nat → Nat) (p : Nat × Nat)
    (rest : List (Nat × Nat)) (e : Edit)
    (h : hbCellStep cache frame p.1 p.2 = (c2, some e)) :
    hbRun frame cache (p :: rest)
      = ((hbRun frame c2 rest).1, e :: (hbRun frame c2 rest).2) := by
  simp only [hbRun, h, Option.toList_some, List.singleton_append]

/-- The frame refuting tick idempotence: pixel 0 holds 0x800000, a pixel
whose blue channel has the high bit set, and every other pixel is black. -/
def badFrame : Nat → Nat := fun i => if i = 0 then 8388608 else 0

lemma badFrame_hash_zero : hbHashAt badFrame 0 0 = -2147483648 := by decide

lemma badFrame_hash_pos (a b : Nat) (h : ¬(a = 0 ∧ b = 0)) :
    hbHashAt badFrame a b = 0 := by
  have h1 : (2 * a) * WIDTH + b ≠ 0 := by
    unfold WIDTH
    omega
  have h2 : (2 * a + 1) * WIDTH + b ≠ 0 := by
    unfold WIDTH
    omega
  unfold hbHashAt badFrame
  rw [if_neg h1, if_neg h2]
  decide

lemma hbCellStep_skip (cache frame : Nat → Nat) (a b : Nat)
    (h : Int.ofNat (cache (a * WIDTH + b)) = hbHashAt frame a b) :
    hbCellStep cache frame a b = (cache, none) := by
  unfold hbCellStep
  rw [if_pos h]

lemma hbCellStep_emit (cache frame : Nat → Nat) (a b : Nat)
    (h : ¬ Int.ofNat (cache (a * WIDTH + b)) = hbHashAt frame a b) :
    hbCellStep cache frame a b
      = (updFn cache (a * WIDTH + b) (toUint32 (hbHashAt frame a b)),
          some (hbEditAt frame a b)) := by
  unfold hbCellStep
  rw [if_neg h]

/-- Running the half-block loop over any cell list on badFrame from a cache
that already agrees with every cell except possibly (0, 0): only the slot of
cell (0, 0) can change, it is rewritten with the unsigned reduction of its
hash when (0, 0) is visited, and an edit is then produced, because the
unsigned reduction of the negative hash never equals the hash again. -/
lemma hbRun_badFrame :
    ∀ (l : List (Nat × Nat)) (cache : Nat → Nat),
      (∀ p ∈ l, p ≠ ((0, 0) : Nat × Nat) →
        Int.ofNat (cache (p.1 * WIDTH + p.2)) = hbHashAt badFrame p.1 p.2) →
      Int.ofNat (cache 0) ≠ hbHashAt badFrame 0 0 →
      (((0, 0) : Nat × Nat) ∈ l →
        ∀ j, (hbRun badFrame cache l).1 j
          = if j = 0 then toUint32 (hbHashAt badFrame 0 0) else cache j)
      ∧ (((0, 0) : Nat × Nat) ∉ l →
        ∀ j, (hbRun badFrame cache l).1 j = cache j)
      ∧ (((0, 0) : Nat × Nat) ∈ l → (hbRun badFrame cache l).2 ≠ []) := by
  intro l
  induction l with
  | nil =>
    intro cache H H0
    refine ⟨?_, ?_, ?_⟩
    · intro hmem
      exact absurd hmem (List.not_mem_nil _)
    · intro _ j
      simp [hbRun]
    · intro hmem
      exact absurd hmem (List.not_mem_nil _)
  | cons p rest ih =>
    intro cache H H0
    obtain ⟨a, b⟩ := p
    by_cases hp : (a, b) = ((0, 0) : Nat × Nat)
    · obtain ⟨rfl, rfl⟩ := Prod.mk.injEq .. ▸ hp
      have hcond : ¬ Int.ofNat (cache (0 * WIDTH + 0)) = hbHashAt badFrame 0 0 := by
        have h00 : 0 * WIDTH + 0 = 0 := by simp
        rw [h00]
        exact H0
      have hstep := hbCellStep_emit cache badFrame 0 0 hcond
      have h00 : 0 * WIDTH + 0 = 0 := by simp
      rw [h00] at hstep
      have hrun := hbRun_cons_emit badFrame cache
        (updFn cache 0 (toUint32 (hbHashAt badFrame 0 0))) ((0, 0) : Nat × Nat) rest
        (hbEditAt badFrame 0 0) hstep
      have hkey : Int.ofNat (toUint32 (hbHashAt badFrame 0 0)) ≠ hbHashAt badFrame 0 0 := by
        rw [badFrame_hash_zero]
        decide
      have hupd0 : updFn cache 0 (toUint32 (hbHashAt badFrame 0 0)) 0
          = toUint32 (hbHashAt badFrame 0 0) := by
        unfold updFn
        rw [if_pos rfl]
      have ihH : ∀ q ∈ rest, q ≠ ((0, 0) : Nat × Nat) →
          Int.ofNat ((updFn cache 0 (toUint32 (hbHashAt badFrame 0 0)))
            (q.1 * WIDTH + q.2)) = hbHashAt badFrame q.1 q.2 := by
        intro q hq hq0
        obtain ⟨u, v⟩ := q
        have hidx : u * WIDTH + v ≠ 0 := by
          intro hz
          apply hq0
          have huv : u = 0 ∧ v = 0 := by
            unfold WIDTH at hz
            omega
          rw [huv.1, huv.2]
        have hu : updFn cache 0 (toUint32 (hbHashAt badFrame 0 0)) (u * WIDTH + v)
            = cache (u * WIDTH + v) := by
          unfold updFn
          rw [if_neg hidx]
        rw [hu]
        exact H (u, v) (List.mem_cons_of_mem _ hq) hq0
      have ihH0 : Int.ofNat ((updFn cache 0 (toUint32 (hbHashAt badFrame 0 0))) 0)
          ≠ hbHashAt badFrame 0 0 := by
        rw [hupd0]
        exact hkey
      obtain ⟨ihm, ihnm, _⟩ := ih (updFn cache 0 (toUint32 (hbHashAt badFrame 0 0))) ihH ihH0
      refine ⟨?_, ?_, ?_⟩
      · intro _ j
        rw [hrun]
        show (hbRun badFrame (updFn cache 0 (toUint32 (hbHashAt badFrame 0 0))) rest).1 j = _
        by_cases hr : ((0, 0) : Nat × Nat) ∈ rest
        · rw [ihm hr j]
          by_cases hj : j = 0
          · rw [if_pos hj, if_pos hj]
          · rw [if_neg hj, if_neg hj]
            unfold updFn
            rw [if_neg hj]
        · rw [ihnm hr j]
          unfold updFn
          rfl
      · intro hnm
        exact absurd (List.mem_cons_self _ _) hnm
      · intro _
        rw [hrun]
        exact List.cons_ne_nil _ _
    · have hcond : Int.ofNat (cache (a * WIDTH + b)) = hbHashAt badFrame a b :=
        H (a, b) (List.mem_cons_self _ _) hp
      have hstep := hbCellStep_skip cache badFrame a b hcond
      have hrun := hbRun_cons_skip badFrame cache ((a, b) : Nat × Nat) rest hstep
      have ihH : ∀ q ∈ rest, q ≠ ((0, 0) : Nat × Nat) →
          Int.ofNat (cache (q.1 * WIDTH + q.2)) = hbHashAt badFrame q.1 q.2 :=
        fun q hq hq0 => H q (List.mem_cons_of_mem _ hq) hq0
      obtain ⟨ihm, ihnm, ihe⟩ := ih cache ihH H0
      have hmm : ((0, 0) : Nat × Nat) ∈ ((a, b) : Nat × Nat) :: rest →
          ((0, 0) : Nat × Nat) ∈ rest := by
        intro hmem
        rcases List.mem_cons.mp hmem with h1 | h1
        · exact absurd h1.symm hp
        · exact h1
      refine ⟨?_, ?_, ?_⟩
      · intro hmem j
        rw [hrun]
        exact ihm (hmm hmem) j
      · intro hnm j
        rw [hrun]
        exact ihnm (fun hr => hnm (List.mem_cons_of_mem _ hr)) j
      · intro hmem
        rw [hrun]
        exact ihe (hmm hmem)

/-- The second half-block tick on badFrame, started from any cache whose
only rewritten slot is cell 0 with the unsigned hash reduction, emits at
least one edit again. -/
lemma hbTick_badFrame_again (cache1 : Nat → Nat)
    (hc1j : ∀ j, cache1 j = if j = 0 then toUint32 (hbHashAt badFrame 0 0) else 0) :
    (hbRun badFrame cache1 hbCells).2 ≠ [] := by
  have hmem : ((0, 0) : Nat × Nat) ∈ hbCells := by
    unfold hbCells
    refine List.mem_flatMap.mpr ⟨0, List.mem_range.mpr (by norm_num),
      List.mem_map.mpr ⟨0, List.mem_range.mpr (by norm_num), rfl⟩⟩
  have H2 : ∀ p ∈ hbCells, p ≠ ((0, 0) : Nat × Nat) →
      Int.ofNat (cache1 (p.1 * WIDTH + p.2)) = hbHashAt badFrame p.1 p.2 := by
    intro p hp hp0
    obtain ⟨a, b⟩ := p
    have hab : ¬(a = 0 ∧ b = 0) := by
      intro hab
      exact hp0 (by rw [hab.1, hab.2])
    have hidx : a * WIDTH + b ≠ 0 := by
      intro hz
      apply hab
      unfold WIDTH at hz
      omega
    rw [hc1j (a * WIDTH + b), if_neg hidx, badFrame_hash_pos a b hab]
    rfl
  have H02 : Int.ofNat (cache1 0) ≠ hbHashAt badFrame 0 0 := by
    rw [hc1j 0, if_pos rfl, badFrame_hash_zero]
    decide
  obtain ⟨_, _, t2edits⟩ := hbRun_badFrame hbCells cache1 H2 H02
  exact t2edits hmem

/-- C9 refuted on the code: starting from the all-zero cache, running the
half-block render tick twice on the pixel-identical frame badFrame, the
second tick still emits at least one edit and sends at least one message,
because the stored unsigned slot of cell (0, 0) can never equal the
negative int32 hash again. -/
theorem secondTick_not_empty :
    (hbTick badFrame ((hbTick badFrame (fun _ => 0)).1)).2 ≠ []
    ∧ hbMessages ((hbTick badFrame ((hbTick badFrame (fun _ => 0)).1)).2) ≠ [] := by
  have hmem : ((0, 0) : Nat × Nat) ∈ hbCells := by
    unfold hbCells
    refine List.mem_flatMap.mpr ⟨0, List.mem_range.mpr (by norm_num),
      List.mem_map.mpr ⟨0, List.mem_range.mpr (by norm_num), rfl⟩⟩
  have H1 : ∀ p ∈ hbCells, p ≠ ((0, 0) : Nat × Nat) →
      Int.ofNat ((fun _ : Nat => 0) (p.1 * WIDTH + p.2)) = hbHashAt badFrame p.1 p.2 := by
    intro p hp hp0
    obtain ⟨a, b⟩ := p
    have hz : hbHashAt badFrame a b = 0 := by
      apply badFrame_hash_pos
      intro hab
      exact hp0 (by rw [hab.1, hab.2])
    rw [hz]
    rfl
  have H01 : Int.ofNat ((fun _ : Nat => 0) 0) ≠ hbHashAt badFrame 0 0 := by
    rw [badFrame_hash_zero]
    decide
  obtain ⟨t1mem, _, _⟩ := hbRun_badFrame hbCells (fun _ => 0) H1 H01
  have hne : (hbTick badFrame ((hbTick badFrame (fun _ => 0)).1)).2 ≠ [] :=
    hbTick_badFrame_again ((hbTick badFrame (fun _ => 0)).1) (t1mem hmem)
  exact ⟨hne, chunk500_ne_nil Edit _ hne⟩

/-!
Chat command handling of the octant variant, the only variant whose
vocabulary has compound tokens.  A recognised token maps to the list of its
jsnes button codes (the jsnes constants: a 0, b 1, select 2, start 3, up 4,
down 5, left 6, right 7); all of them are pressed at once with buttonDown
and one 500 ms timeout is scheduled that releases them all together.  The
handler declares a buttonTimers map but never reads or writes it, so a
repeated token schedules an additional independent timeout instead of
resetting the pending one.  The embedding keeps virtual time: a pending
timeout is a pair of its fire time and its token, and firing one removes it
and releases the buttons of its token.
-/

/-- The token vocabulary of the octant variant with its jsnes button code
lists, in source order of the compound lists. -/
def CONTROLLER_MAP_OCT : String → Option (List Nat)
  | "up" => some [4]
  | "down" => some [5]
  | "left" => some [6]
  | "right" => some [7]
  | "a" => some [0]
  | "b" => some [1]
  | "start" => some [3]
  | "select" => some [2]
  | "right+a" => some [7, 0]
  | "left+a" => some [6, 0]
  | _ => none

/-- State of the virtual pad: the buttons currently held down and the
pending release timeouts in creation order. -/
structure PadState where
  pressed : List Nat
  timers : List (Nat × String)
  deriving DecidableEq

/-- The forEach of buttonDown calls: every mapped button becomes pressed. -/
def pressButtons (btns : List Nat) (pressed : List Nat) : List Nat :=
  btns.foldl (fun acc b => if b ∈ acc then acc else acc ++ [b]) pressed

/-- The chat handler of the octant variant at virtual time t: an
unrecognised token is a no-op; a recognised one presses all its buttons and
appends one release timeout at t + 500, without clearing any pending
timeout for the same token. -/
def octChatPress (t : Nat) (msg : String) (s : PadState) : PadState :=
  match CONTROLLER_MAP_OCT msg with
  | none => s
  | some btns =>
    { pressed := pressButtons btns s.pressed
      timers := s.timers ++ [(t + 500, msg)] }

/-- Firing one pending timeout: the buttons of its token are released
together with buttonUp and the entry leaves the pending list. -/
def octFireTimer (s : PadState) (e : Nat × String) : PadState :=
  match CONTROLLER_MAP_OCT e.2 with
  | none => { pressed := s.pressed, timers := s.timers.erase e }
  | some btns =>
    { pressed := s.pressed.filter (fun b => ! btns.contains b)
      timers := s.timers.erase e }

/-- C8 evaluated at the failing input: the token right+a at time 0 presses
right (7) and a (0) together; repeating it at time 300, before the 500 ms
expiry, leaves two independent pending release timeouts, at 500 and at 800,
instead of one reset timer; the earliest fires at time 500 and releases
both buttons 200 ms after the second press. -/
theorem compoundToken_timers_stack :
    (7 ∈ (octChatPress 0 "right+a" ⟨[], []⟩).pressed
      ∧ 0 ∈ (octChatPress 0 "right+a" ⟨[], []⟩).pressed)
    ∧ (octChatPress 300 "right+a" (octChatPress 0 "right+a" ⟨[], []⟩)).timers
        = [(500, "right+a"), (800, "right+a")]
    ∧ (octFireTimer (octChatPress 300 "right+a" (octChatPress 0 "right+a" ⟨[], []⟩))
          (500, "right+a")).pressed = []
    ∧ (octFireTimer (octChatPress 300 "right+a" (octChatPress 0 "right+a" ⟨[], []⟩))
          (500, "right+a")).timers = [(800, "right+a")] := by
  decide
